import Mathlib

/-!
Shallow embedding of the namespaced key-value store of pkg/store: the
engine-selection factory NewStore (store.go) and the bbolt-backed
implementation BboltStore (Put, Get, Delete, ListKeys, KeysByPrefix).

A bbolt database is modelled as an association list from bucket names
(namespaces, Go strings) to buckets; a bucket is an association list from
keys to values (byte strings, modelled as lists of naturals), kept in
ascending lexicographic key order exactly as the engine's B+tree stores
it.  The engine primitives used by the source (Tx.CreateBucketIfNotExists,
Bucket.Put, Bucket.Get, Bucket.Delete, cursor First/Next/Seek) are
modelled with the argument checks bbolt performs: an empty bucket name is
rejected with ErrBucketNameRequired, an empty key with ErrKeyRequired,
and oversized keys/values with ErrKeyTooLarge/ErrValueTooLarge.  Each
public store operation runs inside a single transaction (db.Update or
db.View), so each mutating operation either commits (returning the new
database) or fails leaving the database untouched; this is captured by
returning Except: ok carries the committed state, error leaves the caller
with the old state.
-/

namespace Store

/-- Byte strings (Go []byte) modelled as lists of naturals. -/
abbrev Bytes := List Nat

/-- Strict lexicographic byte order, as computed by Go bytes.Compare;
this is the key order bbolt maintains inside a bucket. -/
def bytesLt : Bytes → Bytes → Bool
  | [], [] => false
  | [], _ :: _ => true
  | _ :: _, [] => false
  | a :: as, b :: bs =>
    if a < b then true
    else if b < a then false
    else bytesLt as bs

/-- Go bytes.HasPrefix s pfx: pfx is a leading segment of s. -/
def goHasPfx : Bytes → Bytes → Bool
  | _, [] => true
  | [], _ :: _ => false
  | a :: as, p :: ps => if a = p then goHasPfx as ps else false

/-- One bucket: key/value pairs in the order the engine's cursor yields
them (ascending key order for every bucket the engine builds). -/
abbrev Bucket := List (Bytes × Bytes)

/-- The whole database: bucket name (namespace) to bucket contents. -/
abbrev Db := List (String × Bucket)

/-- Error outcomes of the modelled operations.  bucketNameRequired,
keyRequired, keyTooLarge and valueTooLarge are bbolt's argument errors
(surfaced by the store wrapped in its own message); bucketNotFound and
keyNotFound are the store's not-found errors; unsupportedEngine is the
NewStore factory error for an unknown engine name. -/
inductive Err where
  | bucketNameRequired
  | keyRequired
  | keyTooLarge
  | valueTooLarge
  | bucketNotFound (ns : String)
  | keyNotFound (k : Bytes)
  | unsupportedEngine (engine : String)
  deriving DecidableEq, Repr

instance {ε α : Type} [DecidableEq ε] [DecidableEq α] : DecidableEq (Except ε α) := fun x y =>
  match x, y with
  | .ok a, .ok b =>
    if h : a = b then isTrue (congrArg Except.ok h)
    else isFalse fun hc => h (Except.ok.inj hc)
  | .ok _, .error _ => isFalse fun hc => Except.noConfusion hc
  | .error _, .ok _ => isFalse fun hc => Except.noConfusion hc
  | .error a, .error b =>
    if h : a = b then isTrue (congrArg Except.error h)
    else isFalse fun hc => h (Except.error.inj hc)

/-- bbolt MaxKeySize. -/
def maxKeySize : Nat := 32768

/-- bbolt MaxValueSize. -/
def maxValueSize : Nat := 2147483646

/-- Tx.Bucket: look a bucket up by name, none when absent. -/
def findBucket : Db → String → Option Bucket
  | [], _ => none
  | (n, b) :: rest, ns => if n = ns then some b else findBucket rest ns

/-- Replace the contents of bucket ns (creating it when absent); this is
how a mutation made through a bucket handle is committed back into the
modelled database. -/
def setBucket : Db → String → Bucket → Db
  | [], ns, b => [(ns, b)]
  | (n, b0) :: rest, ns, b =>
    if n = ns then (n, b) :: rest else (n, b0) :: setBucket rest ns b

/-- Tx.CreateBucketIfNotExists: rejects the empty bucket name with
ErrBucketNameRequired, otherwise returns the (possibly just created)
bucket together with the database that now contains it. -/
def createBucketIfNotExists (db : Db) (ns : String) : Except Err (Db × Bucket) :=
  if ns = "" then .error .bucketNameRequired
  else
    match findBucket db ns with
    | some b => .ok (db, b)
    | none => .ok (setBucket db ns [], [])

/-- The pure insertion underlying Bucket.Put: replace the value of an
existing key, or insert the pair at its sorted position. -/
def bucketPutGo : Bucket → Bytes → Bytes → Bucket
  | [], k, v => [(k, v)]
  | (k0, v0) :: rest, k, v =>
    if bytesLt k k0 then (k, v) :: (k0, v0) :: rest
    else if k = k0 then (k, v) :: rest
    else (k0, v0) :: bucketPutGo rest k v

/-- Bucket.Put with bbolt's argument checks, in the order the engine
performs them: empty key, key size, value size. -/
def bucketPutChecked (b : Bucket) (k v : Bytes) : Except Err Bucket :=
  if k = [] then .error .keyRequired
  else if maxKeySize < k.length then .error .keyTooLarge
  else if maxValueSize < v.length then .error .valueTooLarge
  else .ok (bucketPutGo b k v)

/-- Bucket.Get: first value stored under k, none when absent.  (A value
committed by the engine is never a nil slice, even when empty, so the
store's val == nil test is exactly this none test.) -/
def bucketLookup : Bucket → Bytes → Option Bytes
  | [], _ => none
  | (k0, v0) :: rest, k => if k0 = k then some v0 else bucketLookup rest k

/-- Bucket.Delete: removes the entry holding k when present; deleting an
absent key is a no-op, as in bbolt. -/
def bucketDeleteGo : Bucket → Bytes → Bucket
  | [], _ => []
  | (k0, v0) :: rest, k =>
    if k0 = k then rest else (k0, v0) :: bucketDeleteGo rest k

/-- The keys of a bucket in cursor order (Cursor.First / Cursor.Next). -/
def keysOf (b : Bucket) : List Bytes := b.map Prod.fst

/-- BboltStore.Put: db.Update of CreateBucketIfNotExists followed by
Bucket.Put; on success the transaction commits the new state. -/
def Put (db : Db) (ns : String) (k v : Bytes) : Except Err Db :=
  match createBucketIfNotExists db ns with
  | .error e => .error e
  | .ok (db1, b) =>
    match bucketPutChecked b k v with
    | .error e => .error e
    | .ok b2 => .ok (setBucket db1 ns b2)

/-- BboltStore.Get: db.View looking the bucket up (error "bucket no
encontrado" when absent) and then the key (error "clave no encontrada"
when Bucket.Get yields nil). -/
def Get (db : Db) (ns : String) (k : Bytes) : Except Err Bytes :=
  match findBucket db ns with
  | none => .error (.bucketNotFound ns)
  | some b =>
    match bucketLookup b k with
    | none => .error (.keyNotFound k)
    | some v => .ok v

/-- BboltStore.Delete: db.Update that fails when the bucket is absent and
otherwise applies Bucket.Delete. -/
def Delete (db : Db) (ns : String) (k : Bytes) : Except Err Db :=
  match findBucket db ns with
  | none => .error (.bucketNotFound ns)
  | some b => .ok (setBucket db ns (bucketDeleteGo b k))

/-- BboltStore.ListKeys: db.View that fails when the bucket is absent and
otherwise collects (copies of) every key from Cursor.First/Next. -/
def ListKeys (db : Db) (ns : String) : Except Err (List Bytes) :=
  match findBucket db ns with
  | none => .error (.bucketNotFound ns)
  | some b => .ok (keysOf b)

/-- BboltStore.KeysByPrefix: db.View that fails when the bucket is
absent and otherwise iterates from Cursor.Seek pfx (the first key not
below pfx, modelled as dropWhile on the sorted key list) while
bytes.HasPrefix holds. -/
def KeysByPrefix (db : Db) (ns : String) (pfx : Bytes) : Except Err (List Bytes) :=
  match findBucket db ns with
  | none => .error (.bucketNotFound ns)
  | some b =>
    .ok (((keysOf b).dropWhile fun k => bytesLt k pfx).takeWhile fun k => goHasPfx k pfx)

/-- NewStore (store.go): dispatch on the engine name; only "bbolt" is
registered, every other name fails with the unknown-engine error.  A
successful NewBboltStore open of a fresh path is modelled as the empty
database (file input/output itself is outside the model). -/
def NewStore (engine : String) : Except Err Db :=
  if engine = "bbolt" then .ok [] else .error (.unsupportedEngine engine)

/-- A key list in strictly ascending lexicographic order. -/
def bytesSortedStrict : List Bytes → Bool
  | [] => true
  | [_] => true
  | a :: b :: rest => bytesLt a b && bytesSortedStrict (b :: rest)

/-- x is strictly below every element of the list. -/
def bytesAllLt (x : Bytes) : List Bytes → Bool
  | [] => true
  | y :: ys => bytesLt x y && bytesAllLt x ys

/-- A bucket whose keys are in strictly ascending order, the invariant
bbolt maintains for every bucket. -/
def bucketSorted (b : Bucket) : Bool := bytesSortedStrict (keysOf b)

/-- Well-formed database: every bucket is sorted.  Every database the
engine can hand out satisfies this. -/
def DbWF (db : Db) : Bool := db.all fun nb => bucketSorted nb.2

/-- One mutating store call, for reasoning about operation histories. -/
inductive Op where
  | put (ns : String) (k v : Bytes)
  | del (ns : String) (k : Bytes)

/-- Run one mutating call: on success the commit replaces the state, on
error the transaction rolls back and the state is unchanged. -/
def applyOp (db : Db) : Op → Db
  | .put ns k v =>
    match Put db ns k v with
    | .ok db2 => db2
    | .error _ => db
  | .del ns k =>
    match Delete db ns k with
    | .ok db2 => db2
    | .error _ => db

/-- Run a history of mutating calls from a starting state. -/
def applyOps (db : Db) (ops : List Op) : Db := ops.foldl applyOp db

/-- The arguments Put accepts (the complement of its error cases). -/
def putValid (ns : String) (k v : Bytes) : Bool :=
  decide (ns ≠ "") && decide (k ≠ []) &&
    decide (k.length ≤ maxKeySize) && decide (v.length ≤ maxValueSize)

/-- Whether key k of namespace ns holds an entry. -/
def keyPresent (db : Db) (ns : String) (k : Bytes) : Bool :=
  match findBucket db ns with
  | none => false
  | some b => (bucketLookup b k).isSome

/-- Specification-side effect of one call on the presence of (ns, k):
a successful Put establishes it, a Delete of that pair removes it, and
every other call leaves it alone. -/
def refStep (ns : String) (k : Bytes) (acc : Bool) : Op → Bool
  | .put ns2 k2 v => if ns2 = ns ∧ k2 = k ∧ putValid ns2 k2 v = true then true else acc
  | .del ns2 k2 => if ns2 = ns ∧ k2 = k then false else acc

/-- Specification-side presence of (ns, k) after a history: it was Put
(successfully) at some point and not subsequently Deleted. -/
def refPresent (ops : List Op) (ns : String) (k : Bytes) : Bool :=
  ops.foldl (refStep ns k) false

/-- The composite scenario of the overwrite property: Put v1, Put v2,
then Get, propagating any error. -/
def putPutGet (db : Db) (ns : String) (k v1 v2 : Bytes) : Except Err Bytes :=
  match Put db ns k v1 with
  | .error e => .error e
  | .ok d1 =>
    match Put d1 ns k v2 with
    | .error e => .error e
    | .ok d2 => Get d2 ns k

/-! Order lemmas for the lexicographic byte order. -/

theorem bytesLt_irrefl (a : Bytes) : bytesLt a a = false := by
  induction a with
  | nil => rfl
  | cons x xs ih => simp [bytesLt, ih]

theorem bytesLt_nil_right (a : Bytes) : bytesLt a [] = false := by
  cases a <;> rfl

theorem bytesLt_ne {a b : Bytes} (h : bytesLt a b = true) : a ≠ b := by
  intro hab
  rw [hab, bytesLt_irrefl] at h
  exact Bool.false_ne_true h

theorem bytesLt_trans {a b c : Bytes} :
    bytesLt a b = true → bytesLt b c = true → bytesLt a c = true := by
  induction a generalizing b c with
  | nil =>
    intro h1 h2
    cases b with
    | nil => simp [bytesLt] at h1
    | cons y ys =>
      cases c with
      | nil => simp [bytesLt] at h2
      | cons z zs => rfl
  | cons x xs ih =>
    intro h1 h2
    cases b with
    | nil => simp [bytesLt] at h1
    | cons y ys =>
      cases c with
      | nil => simp [bytesLt] at h2
      | cons z zs =>
        simp only [bytesLt] at h1 h2 ⊢
        rcases Nat.lt_trichotomy x y with hxy | hxy | hxy
        · rcases Nat.lt_trichotomy y z with hyz | hyz | hyz
          · simp [Nat.lt_trans hxy hyz]
          · subst hyz; simp [hxy]
          · simp [Nat.lt_asymm hyz, hyz] at h2
        · subst hxy
          simp only [Nat.lt_irrefl, if_false] at h1
          rcases Nat.lt_trichotomy x z with hxz | hxz | hxz
          · simp [hxz]
          · subst hxz
            simp only [Nat.lt_irrefl, if_false] at h2 ⊢
            exact ih h1 h2
          · simp [Nat.lt_asymm hxz, hxz] at h2
        · simp [Nat.lt_asymm hxy, hxy] at h1

theorem bytesLt_antisymm {a b : Bytes} :
    bytesLt a b = false → bytesLt b a = false → a = b := by
  induction a generalizing b with
  | nil =>
    intro h1 _
    cases b with
    | nil => rfl
    | cons y ys => simp [bytesLt] at h1
  | cons x xs ih =>
    intro h1 h2
    cases b with
    | nil => simp [bytesLt] at h2
    | cons y ys =>
      simp only [bytesLt] at h1 h2
      rcases Nat.lt_trichotomy x y with h | h | h
      · simp [h] at h1
      · subst h
        simp only [Nat.lt_irrefl, if_false] at h1 h2
        rw [ih h1 h2]
      · simp [h, Nat.lt_asymm h] at h2

/-! Lemmas on the byte-prefix test. -/

theorem goHasPfx_nil (k : Bytes) : goHasPfx k [] = true := by
  cases k <;> rfl

theorem goHasPfx_not_lt {k pfx : Bytes} (h : goHasPfx k pfx = true) :
    bytesLt k pfx = false := by
  induction pfx generalizing k with
  | nil => exact bytesLt_nil_right k
  | cons p ps ih =>
    cases k with
    | nil => simp [goHasPfx] at h
    | cons a as =>
      simp only [goHasPfx] at h
      by_cases hap : a = p
      · subst hap
        simp only [if_pos rfl] at h
        simp [bytesLt, ih h]
      · simp [hap] at h

theorem goHasPfx_between {pfx b c : Bytes} (hc : goHasPfx c pfx = true)
    (hbc : bytesLt b c = true) (hbp : bytesLt b pfx = false) :
    goHasPfx b pfx = true := by
  induction pfx generalizing b c with
  | nil => exact goHasPfx_nil b
  | cons p ps ih =>
    cases c with
    | nil => simp [goHasPfx] at hc
    | cons z zs =>
      cases b with
      | nil => simp [bytesLt] at hbp
      | cons x xs =>
        simp only [goHasPfx] at hc ⊢
        by_cases hzp : z = p
        · subst hzp
          simp only [if_pos rfl] at hc
          simp only [bytesLt] at hbc hbp
          rcases Nat.lt_trichotomy x z with h | h | h
          · simp [h] at hbp
          · subst h
            simp only [Nat.lt_irrefl, if_false] at hbc hbp
            simpa using ih hc hbc hbp
          · simp [h, Nat.lt_asymm h] at hbc
        · simp [hzp] at hc

/-! Sorted key lists. -/

theorem bytesAllLt_iff {x : Bytes} {l : List Bytes} :
    bytesAllLt x l = true ↔ ∀ y ∈ l, bytesLt x y = true := by
  induction l with
  | nil => simp [bytesAllLt]
  | cons y ys ih => simp [bytesAllLt, ih]

theorem bytesSortedStrict_cons {x : Bytes} {l : List Bytes} :
    bytesSortedStrict (x :: l) = true ↔
      bytesAllLt x l = true ∧ bytesSortedStrict l = true := by
  induction l generalizing x with
  | nil => simp [bytesSortedStrict, bytesAllLt]
  | cons y ys ih =>
    constructor
    · intro h
      simp only [bytesSortedStrict, Bool.and_eq_true] at h
      obtain ⟨hxy, hrest⟩ := h
      have hy := (ih (x := y)).mp hrest
      refine ⟨?_, hrest⟩
      simp only [bytesAllLt, Bool.and_eq_true]
      refine ⟨hxy, ?_⟩
      rw [bytesAllLt_iff]
      intro z hz
      exact bytesLt_trans hxy (bytesAllLt_iff.mp hy.1 z hz)
    · intro ⟨hall, hsort⟩
      simp only [bytesAllLt, Bool.and_eq_true] at hall
      simp only [bytesSortedStrict, Bool.and_eq_true]
      exact ⟨hall.1, hsort⟩

theorem not_mem_of_bytesAllLt {x : Bytes} {l : List Bytes}
    (h : bytesAllLt x l = true) : x ∉ l := by
  intro hmem
  exact bytesLt_ne (bytesAllLt_iff.mp h x hmem) rfl

theorem nodup_of_bytesSortedStrict {l : List Bytes}
    (h : bytesSortedStrict l = true) : l.Nodup := by
  induction l with
  | nil => exact List.nodup_nil
  | cons x xs ih =>
    rw [bytesSortedStrict_cons] at h
    exact List.nodup_cons.mpr ⟨not_mem_of_bytesAllLt h.1, ih h.2⟩

theorem bytesAllLt_filter {x : Bytes} {l : List Bytes} (p : Bytes → Bool)
    (h : bytesAllLt x l = true) : bytesAllLt x (l.filter p) = true := by
  rw [bytesAllLt_iff] at h ⊢
  intro y hy
  exact h y (List.mem_filter.mp hy).1

theorem bytesSortedStrict_filter {l : List Bytes} (p : Bytes → Bool)
    (h : bytesSortedStrict l = true) : bytesSortedStrict (l.filter p) = true := by
  induction l with
  | nil => rfl
  | cons x xs ih =>
    rw [bytesSortedStrict_cons] at h
    by_cases hp : p x = true
    · rw [List.filter_cons_of_pos hp, bytesSortedStrict_cons]
      exact ⟨bytesAllLt_filter p h.1, ih h.2⟩
    · rw [List.filter_cons_of_neg (by simpa using hp)]
      exact ih h.2

/-- On a segment whose elements are all at or above pfx, the cursor walk
(takeWhile the prefix test) collects exactly the keys with the prefix. -/
theorem takeWhile_eq_filter_of_ge {pfx : Bytes} {l : List Bytes}
    (hs : bytesSortedStrict l = true)
    (hge : ∀ x ∈ l, bytesLt x pfx = false) :
    (l.takeWhile fun k => goHasPfx k pfx) = l.filter fun k => goHasPfx k pfx := by
  induction l with
  | nil => rfl
  | cons x xs ih =>
    rw [bytesSortedStrict_cons] at hs
    by_cases hp : goHasPfx x pfx = true
    · simp only [List.takeWhile_cons, List.filter_cons, hp, if_true]
      rw [ih hs.2 fun y hy => hge y (List.mem_cons_of_mem x hy)]
    · have hp2 : goHasPfx x pfx = false := by simpa using hp
      have hnone : ∀ y ∈ xs, ¬ ((fun k => goHasPfx k pfx) y = true) := by
        intro y hy hpy
        have hxy : bytesLt x y = true := bytesAllLt_iff.mp hs.1 y hy
        have hx := goHasPfx_between hpy hxy (hge x (List.mem_cons_self x xs))
        rw [hx] at hp2
        exact Bool.noConfusion hp2
      simp only [List.takeWhile_cons, List.filter_cons, hp2, Bool.false_eq_true, if_false]
      exact (List.filter_eq_nil_iff.mpr hnone).symm


/-! Bucket-level lemmas. -/

theorem bucketLookup_putGo_self (b : Bucket) (k v : Bytes) :
    bucketLookup (bucketPutGo b k v) k = some v := by
  induction b with
  | nil => simp [bucketPutGo, bucketLookup]
  | cons p rest ih =>
    obtain ⟨k0, v0⟩ := p
    simp only [bucketPutGo]
    by_cases h1 : bytesLt k k0 = true
    · rw [if_pos h1]
      simp [bucketLookup]
    · rw [if_neg h1]
      by_cases h2 : k = k0
      · rw [if_pos h2]
        simp [bucketLookup]
      · rw [if_neg h2]
        have hne : ¬ k0 = k := fun hc => h2 hc.symm
        simp only [bucketLookup, hne, if_false]
        exact ih

theorem bucketLookup_putGo_other (b : Bucket) (k v k2 : Bytes) (hne : k2 ≠ k) :
    bucketLookup (bucketPutGo b k v) k2 = bucketLookup b k2 := by
  have hne2 : ¬ k = k2 := fun hc => hne hc.symm
  induction b with
  | nil => simp [bucketPutGo, bucketLookup, hne2]
  | cons p rest ih =>
    obtain ⟨k0, v0⟩ := p
    simp only [bucketPutGo]
    by_cases h1 : bytesLt k k0 = true
    · rw [if_pos h1]
      simp only [bucketLookup, hne2, if_false]
    · rw [if_neg h1]
      by_cases h2 : k = k0
      · rw [if_pos h2]
        subst h2
        simp only [bucketLookup, hne2, if_false]
      · rw [if_neg h2]
        simp only [bucketLookup]
        by_cases h3 : k0 = k2
        · rw [if_pos h3, if_pos h3]
        · rw [if_neg h3, if_neg h3]
          exact ih

theorem bucketLookup_deleteGo_other (b : Bucket) (k k2 : Bytes) (hne : k2 ≠ k) :
    bucketLookup (bucketDeleteGo b k) k2 = bucketLookup b k2 := by
  induction b with
  | nil => rfl
  | cons p rest ih =>
    obtain ⟨k0, v0⟩ := p
    simp only [bucketDeleteGo]
    by_cases h1 : k0 = k
    · rw [if_pos h1]
      have h3 : ¬ k0 = k2 := fun hc => hne (hc.symm.trans h1)
      simp only [bucketLookup, h3, if_false]
    · rw [if_neg h1]
      simp only [bucketLookup]
      by_cases h3 : k0 = k2
      · rw [if_pos h3, if_pos h3]
      · rw [if_neg h3, if_neg h3]
        exact ih

theorem bucketLookup_none_of_allLt {b : Bucket} {k : Bytes}
    (h : bytesAllLt k (keysOf b) = true) : bucketLookup b k = none := by
  induction b with
  | nil => rfl
  | cons p rest ih =>
    obtain ⟨k0, v0⟩ := p
    simp only [keysOf, List.map_cons, bytesAllLt, Bool.and_eq_true] at h
    have hne : ¬ k0 = k := fun hc => bytesLt_ne h.1 hc.symm
    simp only [bucketLookup, hne, if_false]
    exact ih h.2

theorem bucketSorted_cons {k0 v0 : Bytes} {rest : Bucket} :
    bucketSorted ((k0, v0) :: rest) = true ↔
      bytesAllLt k0 (keysOf rest) = true ∧ bucketSorted rest = true := by
  rw [bucketSorted, keysOf, List.map_cons]
  exact bytesSortedStrict_cons

theorem bucketLookup_deleteGo_self {b : Bucket} (k : Bytes)
    (hs : bucketSorted b = true) : bucketLookup (bucketDeleteGo b k) k = none := by
  induction b with
  | nil => rfl
  | cons p rest ih =>
    obtain ⟨k0, v0⟩ := p
    rw [bucketSorted_cons] at hs
    simp only [bucketDeleteGo]
    by_cases h1 : k0 = k
    · rw [if_pos h1]
      subst h1
      exact bucketLookup_none_of_allLt hs.1
    · rw [if_neg h1]
      simp only [bucketLookup, h1, if_false]
      exact ih hs.2

theorem bucketDeleteGo_absent {b : Bucket} {k : Bytes}
    (h : bucketLookup b k = none) : bucketDeleteGo b k = b := by
  induction b with
  | nil => rfl
  | cons p rest ih =>
    obtain ⟨k0, v0⟩ := p
    simp only [bucketLookup] at h
    by_cases h1 : k0 = k
    · rw [if_pos h1] at h
      exact absurd h (by simp)
    · rw [if_neg h1] at h
      simp only [bucketDeleteGo, h1, if_false]
      rw [ih h]

theorem mem_keysOf_iff {b : Bucket} {k : Bytes} :
    k ∈ keysOf b ↔ (bucketLookup b k).isSome = true := by
  induction b with
  | nil => simp [keysOf, bucketLookup]
  | cons p rest ih =>
    obtain ⟨k0, v0⟩ := p
    simp only [keysOf, List.map_cons, List.mem_cons]
    simp only [bucketLookup]
    by_cases h1 : k0 = k
    · rw [if_pos h1]
      simp [h1.symm]
    · rw [if_neg h1]
      have h2 : ¬ k = k0 := fun hc => h1 hc.symm
      simp only [h2, false_or]
      exact ih

theorem mem_keysOf_putGo {b : Bucket} {k v y : Bytes}
    (hy : y ∈ keysOf (bucketPutGo b k v)) : y = k ∨ y ∈ keysOf b := by
  induction b with
  | nil =>
    simp only [bucketPutGo, keysOf, List.map_cons, List.map_nil,
      List.mem_singleton] at hy
    exact Or.inl hy
  | cons p rest ih =>
    obtain ⟨k0, v0⟩ := p
    simp only [keysOf, List.map_cons, List.mem_cons]
    simp only [bucketPutGo] at hy
    by_cases h1 : bytesLt k k0 = true
    · rw [if_pos h1] at hy
      simp only [keysOf, List.map_cons, List.mem_cons] at hy
      tauto
    · rw [if_neg h1] at hy
      by_cases h2 : k = k0
      · rw [if_pos h2] at hy
        simp only [keysOf, List.map_cons, List.mem_cons] at hy
        tauto
      · rw [if_neg h2] at hy
        simp only [keysOf, List.map_cons, List.mem_cons] at hy
        rcases hy with h | h
        · tauto
        · rcases ih h with h3 | h3 <;> tauto

theorem bytesAllLt_putGo {x : Bytes} {b : Bucket} {k v : Bytes}
    (hall : bytesAllLt x (keysOf b) = true) (hxk : bytesLt x k = true) :
    bytesAllLt x (keysOf (bucketPutGo b k v)) = true := by
  rw [bytesAllLt_iff] at hall ⊢
  intro y hy
  rcases mem_keysOf_putGo hy with h | h
  · rw [h]; exact hxk
  · exact hall y h

theorem bucketSorted_putGo {b : Bucket} (k v : Bytes)
    (hs : bucketSorted b = true) : bucketSorted (bucketPutGo b k v) = true := by
  induction b with
  | nil => rfl
  | cons p rest ih =>
    obtain ⟨k0, v0⟩ := p
    rw [bucketSorted_cons] at hs
    simp only [bucketPutGo]
    by_cases h1 : bytesLt k k0 = true
    · rw [if_pos h1, bucketSorted_cons]
      constructor
      · simp only [keysOf, List.map_cons, bytesAllLt, Bool.and_eq_true]
        refine ⟨h1, ?_⟩
        rw [bytesAllLt_iff]
        intro y hy
        exact bytesLt_trans h1 (bytesAllLt_iff.mp hs.1 y hy)
      · rw [bucketSorted_cons]
        exact hs
    · rw [if_neg h1]
      by_cases h2 : k = k0
      · rw [if_pos h2, bucketSorted_cons]
        subst h2
        exact hs
      · rw [if_neg h2, bucketSorted_cons]
        have hk0k : bytesLt k0 k = true := by
          by_cases h : bytesLt k0 k = true
          · exact h
          · exact absurd (bytesLt_antisymm (by simpa using h1) (by simpa using h)) h2
        exact ⟨bytesAllLt_putGo hs.1 hk0k, ih hs.2⟩

theorem mem_keysOf_deleteGo {b : Bucket} {k y : Bytes}
    (hy : y ∈ keysOf (bucketDeleteGo b k)) : y ∈ keysOf b := by
  induction b with
  | nil => simpa [bucketDeleteGo] using hy
  | cons p rest ih =>
    obtain ⟨k0, v0⟩ := p
    simp only [keysOf, List.map_cons, List.mem_cons]
    simp only [bucketDeleteGo] at hy
    by_cases h1 : k0 = k
    · rw [if_pos h1] at hy
      exact Or.inr hy
    · rw [if_neg h1] at hy
      simp only [keysOf, List.map_cons, List.mem_cons] at hy
      rcases hy with h | h
      · exact Or.inl h
      · exact Or.inr (ih h)

theorem bytesAllLt_deleteGo {x : Bytes} {b : Bucket} (k : Bytes)
    (hall : bytesAllLt x (keysOf b) = true) :
    bytesAllLt x (keysOf (bucketDeleteGo b k)) = true := by
  rw [bytesAllLt_iff] at hall ⊢
  intro y hy
  exact hall y (mem_keysOf_deleteGo hy)

theorem bucketSorted_deleteGo {b : Bucket} (k : Bytes)
    (hs : bucketSorted b = true) : bucketSorted (bucketDeleteGo b k) = true := by
  induction b with
  | nil => rfl
  | cons p rest ih =>
    obtain ⟨k0, v0⟩ := p
    rw [bucketSorted_cons] at hs
    simp only [bucketDeleteGo]
    by_cases h1 : k0 = k
    · rw [if_pos h1]
      exact hs.2
    · rw [if_neg h1, bucketSorted_cons]
      exact ⟨bytesAllLt_deleteGo k hs.1, ih hs.2⟩

/-! Database-level lemmas. -/

theorem findBucket_setBucket_self (db : Db) (ns : String) (b : Bucket) :
    findBucket (setBucket db ns b) ns = some b := by
  induction db with
  | nil => simp [setBucket, findBucket]
  | cons p rest ih =>
    obtain ⟨n, b0⟩ := p
    simp only [setBucket]
    by_cases h : n = ns
    · rw [if_pos h]
      simp [findBucket, h]
    · rw [if_neg h]
      simp only [findBucket, h, if_false]
      exact ih

theorem findBucket_setBucket_other (db : Db) (ns ns2 : String) (b : Bucket)
    (hne : ns2 ≠ ns) : findBucket (setBucket db ns b) ns2 = findBucket db ns2 := by
  have hne2 : ¬ ns = ns2 := fun hc => hne hc.symm
  induction db with
  | nil => simp [setBucket, findBucket, hne2]
  | cons p rest ih =>
    obtain ⟨n, b0⟩ := p
    simp only [setBucket]
    by_cases h : n = ns
    · rw [if_pos h]
      have h3 : ¬ n = ns2 := fun hc => hne2 (h.symm.trans hc)
      simp only [findBucket, h3, if_false]
    · rw [if_neg h]
      simp only [findBucket]
      by_cases h3 : n = ns2
      · rw [if_pos h3, if_pos h3]
      · rw [if_neg h3, if_neg h3]
        exact ih

theorem setBucket_unchanged {db : Db} {ns : String} {b : Bucket}
    (h : findBucket db ns = some b) : setBucket db ns b = db := by
  induction db with
  | nil => simp [findBucket] at h
  | cons p rest ih =>
    obtain ⟨n, b0⟩ := p
    simp only [findBucket] at h
    simp only [setBucket]
    by_cases h1 : n = ns
    · rw [if_pos h1] at h
      rw [if_pos h1]
      obtain rfl : b0 = b := Option.some.inj h
      rfl
    · rw [if_neg h1] at h
      rw [if_neg h1, ih h]

theorem DbWF_findBucket {db : Db} {ns : String} {b : Bucket}
    (hwf : DbWF db = true) (h : findBucket db ns = some b) :
    bucketSorted b = true := by
  induction db with
  | nil => simp [findBucket] at h
  | cons p rest ih =>
    obtain ⟨n, b0⟩ := p
    simp only [DbWF, List.all_cons, Bool.and_eq_true] at hwf
    simp only [findBucket] at h
    by_cases h1 : n = ns
    · rw [if_pos h1] at h
      obtain rfl : b0 = b := Option.some.inj h
      exact hwf.1
    · rw [if_neg h1] at h
      exact ih hwf.2 h

theorem DbWF_setBucket {db : Db} {ns : String} {b : Bucket}
    (hwf : DbWF db = true) (hb : bucketSorted b = true) :
    DbWF (setBucket db ns b) = true := by
  induction db with
  | nil => simpa [setBucket, DbWF] using hb
  | cons p rest ih =>
    obtain ⟨n, b0⟩ := p
    simp only [DbWF, List.all_cons, Bool.and_eq_true] at hwf
    simp only [setBucket]
    by_cases h1 : n = ns
    · rw [if_pos h1]
      simp only [DbWF, List.all_cons, Bool.and_eq_true]
      exact ⟨hb, hwf.2⟩
    · rw [if_neg h1]
      simp only [DbWF, List.all_cons, Bool.and_eq_true]
      exact ⟨hwf.1, ih hwf.2⟩

/-! Structure of a successful Put and of Delete. -/

theorem bucketPutChecked_valid {k v : Bytes} (b : Bucket) (hk : k ≠ [])
    (hkl : k.length ≤ maxKeySize) (hvl : v.length ≤ maxValueSize) :
    bucketPutChecked b k v = .ok (bucketPutGo b k v) := by
  rw [bucketPutChecked, if_neg hk, if_neg (Nat.not_lt.mpr hkl),
    if_neg (Nat.not_lt.mpr hvl)]

theorem bucketPutChecked_ok_inv {b : Bucket} {k v : Bytes} {b2 : Bucket}
    (h : bucketPutChecked b k v = .ok b2) : b2 = bucketPutGo b k v := by
  rw [bucketPutChecked] at h
  split_ifs at h with h1 h2 h3
  exact (Except.ok.inj h).symm

theorem Put_empty_ns (db : Db) (k v : Bytes) :
    Put db "" k v = .error .bucketNameRequired := by
  rw [Put, createBucketIfNotExists, if_pos rfl]

theorem Put_empty_key (db : Db) (ns : String) (v : Bytes) (hns : ns ≠ "") :
    Put db ns [] v = .error .keyRequired := by
  rw [Put, createBucketIfNotExists, if_neg hns]
  rcases hfb : findBucket db ns with _ | b <;>
    simp [bucketPutChecked]

theorem Put_ok_structure {db db2 : Db} {ns : String} {k v : Bytes}
    (h : Put db ns k v = .ok db2) :
    ∃ db1 b0, db2 = setBucket db1 ns (bucketPutGo b0 k v) ∧
      ((db1 = db ∧ findBucket db ns = some b0) ∨
        (db1 = setBucket db ns [] ∧ findBucket db ns = none ∧ b0 = [])) := by
  by_cases hns : ns = ""
  · rw [hns, Put_empty_ns] at h
    exact absurd h (by simp)
  · rcases hfb : findBucket db ns with _ | b
    · simp only [Put, createBucketIfNotExists, hns, if_false, hfb] at h
      rcases hpc : bucketPutChecked [] k v with e | b2
      · rw [hpc] at h
        exact absurd h (by simp)
      · rw [hpc] at h
        obtain rfl : setBucket (setBucket db ns []) ns b2 = db2 := by
          simpa using h
        rw [bucketPutChecked_ok_inv hpc]
        exact ⟨setBucket db ns [], [], rfl, Or.inr ⟨rfl, rfl, rfl⟩⟩
    · simp only [Put, createBucketIfNotExists, hns, if_false, hfb] at h
      rcases hpc : bucketPutChecked b k v with e | b2
      · rw [hpc] at h
        exact absurd h (by simp)
      · rw [hpc] at h
        obtain rfl : setBucket db ns b2 = db2 := by simpa using h
        rw [bucketPutChecked_ok_inv hpc]
        exact ⟨db, b, rfl, Or.inl ⟨rfl, rfl⟩⟩

theorem Put_ok_findBucket_self {db db2 : Db} {ns : String} {k v : Bytes}
    (h : Put db ns k v = .ok db2) :
    ∃ b0, findBucket db2 ns = some (bucketPutGo b0 k v) ∧
      ((findBucket db ns = some b0) ∨ (findBucket db ns = none ∧ b0 = [])) := by
  obtain ⟨db1, b0, rfl, hcase⟩ := Put_ok_structure h
  refine ⟨b0, findBucket_setBucket_self db1 ns (bucketPutGo b0 k v), ?_⟩
  rcases hcase with ⟨_, h2⟩ | ⟨_, h2, h3⟩
  · exact Or.inl h2
  · exact Or.inr ⟨h2, h3⟩

theorem Put_ok_findBucket_other {db db2 : Db} {ns : String} {k v : Bytes}
    (h : Put db ns k v = .ok db2) (ns2 : String) (hne : ns2 ≠ ns) :
    findBucket db2 ns2 = findBucket db ns2 := by
  obtain ⟨db1, b0, rfl, hcase⟩ := Put_ok_structure h
  rw [findBucket_setBucket_other _ _ _ _ hne]
  rcases hcase with ⟨rfl, _⟩ | ⟨rfl, _, _⟩
  · rfl
  · exact findBucket_setBucket_other _ _ _ _ hne

theorem Put_valid_ok {db : Db} {ns : String} {k v : Bytes}
    (hns : ns ≠ "") (hk : k ≠ []) (hkl : k.length ≤ maxKeySize)
    (hvl : v.length ≤ maxValueSize) : ∃ db2, Put db ns k v = .ok db2 := by
  rcases hfb : findBucket db ns with _ | b
  · refine ⟨setBucket (setBucket db ns []) ns (bucketPutGo [] k v), ?_⟩
    simp only [Put, createBucketIfNotExists, if_neg hns, hfb,
      bucketPutChecked_valid [] hk hkl hvl]
  · refine ⟨setBucket db ns (bucketPutGo b k v), ?_⟩
    simp only [Put, createBucketIfNotExists, if_neg hns, hfb,
      bucketPutChecked_valid b hk hkl hvl]

theorem Put_key_too_large {db : Db} {ns : String} {k v : Bytes}
    (hns : ns ≠ "") (hk : k ≠ []) (hkl : maxKeySize < k.length) :
    Put db ns k v = .error .keyTooLarge := by
  rcases hfb : findBucket db ns with _ | b <;>
    simp only [Put, createBucketIfNotExists, if_neg hns, hfb, bucketPutChecked,
      if_neg hk, if_pos hkl]

theorem Put_value_too_large {db : Db} {ns : String} {k v : Bytes}
    (hns : ns ≠ "") (hk : k ≠ []) (hkl : k.length ≤ maxKeySize)
    (hvl : maxValueSize < v.length) : Put db ns k v = .error .valueTooLarge := by
  rcases hfb : findBucket db ns with _ | b <;>
    simp only [Put, createBucketIfNotExists, if_neg hns, hfb, bucketPutChecked,
      if_neg hk, if_neg (Nat.not_lt.mpr hkl), if_pos hvl]

theorem Put_invalid_error {db : Db} {ns : String} {k v : Bytes}
    (h : putValid ns k v = false) : ∃ e, Put db ns k v = .error e := by
  by_cases hns : ns = ""
  · subst hns
    exact ⟨_, Put_empty_ns db k v⟩
  · by_cases hk : k = []
    · subst hk
      exact ⟨_, Put_empty_key db ns v hns⟩
    · by_cases hkl : k.length ≤ maxKeySize
      · by_cases hvl : v.length ≤ maxValueSize
        · exfalso
          simp [putValid, hns, hk, hkl, hvl] at h
        · exact ⟨_, Put_value_too_large hns hk hkl (Nat.lt_of_not_le hvl)⟩
      · exact ⟨_, Put_key_too_large hns hk (Nat.lt_of_not_le hkl)⟩

theorem Put_putValid_ok {db : Db} {ns : String} {k v : Bytes}
    (h : putValid ns k v = true) : ∃ db2, Put db ns k v = .ok db2 := by
  simp only [putValid, Bool.and_eq_true, decide_eq_true_eq] at h
  exact Put_valid_ok h.1.1.1 h.1.1.2 h.1.2 h.2

theorem Get_after_Put {db db2 : Db} {ns : String} {k v : Bytes}
    (h : Put db ns k v = .ok db2) : Get db2 ns k = .ok v := by
  obtain ⟨b0, hfb, _⟩ := Put_ok_findBucket_self h
  simp only [Get, hfb, bucketLookup_putGo_self]

theorem DbWF_Put {db db2 : Db} {ns : String} {k v : Bytes}
    (hwf : DbWF db = true) (h : Put db ns k v = .ok db2) : DbWF db2 = true := by
  obtain ⟨db1, b0, rfl, hcase⟩ := Put_ok_structure h
  rcases hcase with ⟨rfl, h2⟩ | ⟨rfl, h2, rfl⟩
  · exact DbWF_setBucket hwf (bucketSorted_putGo k v (DbWF_findBucket hwf h2))
  · exact DbWF_setBucket (DbWF_setBucket hwf rfl) (bucketSorted_putGo k v rfl)

theorem Delete_absent {db : Db} {ns : String} (k : Bytes)
    (h : findBucket db ns = none) : Delete db ns k = .error (.bucketNotFound ns) := by
  rw [Delete, h]

theorem Delete_present {db : Db} {ns : String} {b : Bucket} (k : Bytes)
    (h : findBucket db ns = some b) :
    Delete db ns k = .ok (setBucket db ns (bucketDeleteGo b k)) := by
  rw [Delete, h]

theorem DbWF_Delete {db db2 : Db} {ns : String} {k : Bytes}
    (hwf : DbWF db = true) (h : Delete db ns k = .ok db2) : DbWF db2 = true := by
  rcases hfb : findBucket db ns with _ | b
  · rw [Delete_absent k hfb] at h
    exact absurd h (by simp)
  · rw [Delete_present k hfb] at h
    obtain rfl : setBucket db ns (bucketDeleteGo b k) = db2 := Except.ok.inj h
    exact DbWF_setBucket hwf (bucketSorted_deleteGo k (DbWF_findBucket hwf hfb))

/-! Case equations for Get. -/

theorem Get_eq_absent {db : Db} {ns : String} (k : Bytes)
    (h : findBucket db ns = none) : Get db ns k = .error (.bucketNotFound ns) := by
  simp only [Get, h]

theorem Get_eq_keyMissing {db : Db} {ns : String} {b : Bucket} (k : Bytes)
    (h : findBucket db ns = some b) (h2 : bucketLookup b k = none) :
    Get db ns k = .error (.keyNotFound k) := by
  simp only [Get, h, h2]

theorem Get_eq_found {db : Db} {ns : String} {b : Bucket} {k v : Bytes}
    (h : findBucket db ns = some b) (h2 : bucketLookup b k = some v) :
    Get db ns k = .ok v := by
  simp only [Get, h, h2]

/-! Case equations for applyOp. -/

theorem applyOp_put_ok {db db2 : Db} {ns : String} {k v : Bytes}
    (h : Put db ns k v = .ok db2) : applyOp db (.put ns k v) = db2 := by
  simp only [applyOp, h]

theorem applyOp_put_error {db : Db} {ns : String} {k v : Bytes} {e : Err}
    (h : Put db ns k v = .error e) : applyOp db (.put ns k v) = db := by
  simp only [applyOp, h]

theorem applyOp_del_ok {db db2 : Db} {ns : String} {k : Bytes}
    (h : Delete db ns k = .ok db2) : applyOp db (.del ns k) = db2 := by
  simp only [applyOp, h]

theorem applyOp_del_error {db : Db} {ns : String} {k : Bytes} {e : Err}
    (h : Delete db ns k = .error e) : applyOp db (.del ns k) = db := by
  simp only [applyOp, h]

/-! Effect of one history step on the presence of an entry. -/

theorem keyPresent_applyOp {db : Db} (hwf : DbWF db = true) (ns : String)
    (k : Bytes) (op : Op) :
    keyPresent (applyOp db op) ns k = refStep ns k (keyPresent db ns k) op := by
  cases op with
  | put ns2 k2 v =>
    simp only [refStep]
    by_cases hv : putValid ns2 k2 v = true
    · obtain ⟨db2, hok⟩ := Put_putValid_ok hv
      rw [applyOp_put_ok hok]
      by_cases hns2 : ns2 = ns
      · subst hns2
        obtain ⟨b0, hfb2, hcase⟩ := Put_ok_findBucket_self hok
        by_cases hk2 : k2 = k
        · subst hk2
          rw [if_pos ⟨rfl, rfl, hv⟩]
          simp only [keyPresent, hfb2, bucketLookup_putGo_self, Option.isSome_some]
        · rw [if_neg fun hc => hk2 hc.2.1]
          simp only [keyPresent, hfb2,
            bucketLookup_putGo_other b0 k2 v k fun hc => hk2 hc.symm]
          rcases hcase with h | ⟨h, rfl⟩
          · rw [h]
          · rw [h]
            rfl
      · rw [if_neg fun hc => hns2 hc.1]
        simp only [keyPresent, Put_ok_findBucket_other hok ns fun hc => hns2 hc.symm]
    · obtain ⟨e, he⟩ := Put_invalid_error (Bool.not_eq_true _ ▸ hv)
      rw [applyOp_put_error he]
      rw [if_neg fun hc => hv hc.2.2]
  | del ns2 k2 =>
    simp only [refStep]
    rcases hfb : findBucket db ns2 with _ | b
    · rw [applyOp_del_error (Delete_absent k2 hfb)]
      by_cases hcond : ns2 = ns ∧ k2 = k
      · rw [if_pos hcond]
        obtain ⟨h1, h2⟩ := hcond
        subst h1
        simp only [keyPresent, hfb]
      · rw [if_neg hcond]
    · rw [applyOp_del_ok (Delete_present k2 hfb)]
      by_cases hns2 : ns2 = ns
      · subst hns2
        have hsb : bucketSorted b = true := DbWF_findBucket hwf hfb
        by_cases hk2 : k2 = k
        · subst hk2
          rw [if_pos ⟨rfl, rfl⟩]
          simp only [keyPresent, findBucket_setBucket_self,
            bucketLookup_deleteGo_self k2 hsb, Option.isSome_none]
        · rw [if_neg fun hc => hk2 hc.2]
          simp only [keyPresent, findBucket_setBucket_self,
            bucketLookup_deleteGo_other b k2 k fun hc => hk2 hc.symm, hfb]
      · rw [if_neg fun hc => hns2 hc.1]
        simp only [keyPresent,
          findBucket_setBucket_other db ns2 ns _ fun hc => hns2 hc.symm]

theorem DbWF_applyOp {db : Db} (hwf : DbWF db = true) (op : Op) :
    DbWF (applyOp db op) = true := by
  cases op with
  | put ns k v =>
    simp only [applyOp]
    rcases h : Put db ns k v with e | db2
    · exact hwf
    · exact DbWF_Put hwf h
  | del ns k =>
    simp only [applyOp]
    rcases h : Delete db ns k with e | db2
    · exact hwf
    · exact DbWF_Delete hwf h

theorem DbWF_applyOps {db : Db} (hwf : DbWF db = true) (ops : List Op) :
    DbWF (applyOps db ops) = true := by
  induction ops generalizing db with
  | nil => exact hwf
  | cons op ops ih => exact ih (DbWF_applyOp hwf op)

theorem keyPresent_applyOps {db : Db} (hwf : DbWF db = true) (ns : String)
    (k : Bytes) (ops : List Op) :
    keyPresent (applyOps db ops) ns k
      = ops.foldl (refStep ns k) (keyPresent db ns k) := by
  induction ops generalizing db with
  | nil => rfl
  | cons op ops ih =>
    simp only [applyOps, List.foldl_cons]
    rw [← keyPresent_applyOp hwf ns k op]
    exact ih (DbWF_applyOp hwf op)

theorem keyPresent_eq_refPresent (ops : List Op) (ns : String) (k : Bytes) :
    keyPresent (applyOps [] ops) ns k = refPresent ops ns k :=
  keyPresent_applyOps (by rfl) ns k ops

/-! The cursor scan from Seek equals a filter on sorted key lists. -/

theorem seek_scan_eq_filter {pfx : Bytes} {l : List Bytes}
    (hs : bytesSortedStrict l = true) :
    ((l.dropWhile fun k => bytesLt k pfx).takeWhile fun k => goHasPfx k pfx)
      = l.filter fun k => goHasPfx k pfx := by
  induction l with
  | nil => rfl
  | cons x xs ih =>
    rw [bytesSortedStrict_cons] at hs
    by_cases hlt : bytesLt x pfx = true
    · have hpf : goHasPfx x pfx = false := by
        by_cases hp : goHasPfx x pfx = true
        · exact absurd hlt (by simp [goHasPfx_not_lt hp])
        · simpa using hp
      simp only [List.dropWhile_cons, List.filter_cons, hlt, hpf, if_true,
        Bool.false_eq_true, if_false]
      exact ih hs.2
    · have hxge : bytesLt x pfx = false := by simpa using hlt
      simp only [List.dropWhile_cons, hxge, Bool.false_eq_true, if_false]
      apply takeWhile_eq_filter_of_ge
      · rw [bytesSortedStrict_cons]
        exact hs
      · intro y hy
        rcases List.mem_cons.mp hy with rfl | hy2
        · exact hxge
        · by_cases hyp : bytesLt y pfx = true
          · have hcon := bytesLt_trans (bytesAllLt_iff.mp hs.1 y hy2) hyp
            rw [hcon] at hxge
            exact absurd hxge (by simp)
          · simpa using hyp

/-! The empty byte sequence is below no key and a leading segment of all. -/

theorem dropWhile_lt_nil (l : List Bytes) :
    (l.dropWhile fun k => bytesLt k []) = l := by
  cases l with
  | nil => rfl
  | cons x xs => simp [List.dropWhile_cons, bytesLt_nil_right]

theorem takeWhile_pfx_nil (l : List Bytes) :
    (l.takeWhile fun k => goHasPfx k []) = l := by
  induction l with
  | nil => rfl
  | cons x xs ih => simp [List.takeWhile_cons, goHasPfx_nil, ih]

/-! Claim theorems. -/

/-- C1: Round trip — a successful Put of value v under namespace ns and
key k, with no intervening mutation of that pair, is followed by a Get
of (ns, k) that returns exactly v without error. -/
theorem put_get_roundtrip (db db2 : Db) (ns : String) (k v : Bytes)
    (h : Put db ns k v = .ok db2) : Get db2 ns k = .ok v :=
  Get_after_Put h

theorem put_get_roundtrip_witness :
    Get [("accounts", [([1], [7])])] "accounts" [1] = .ok [7] :=
  put_get_roundtrip [] [("accounts", [([1], [7])])] "accounts" [1] [7] (by decide)

/-- C2 counterexample: Put with an empty namespace or an empty key does
not succeed like ordinary arguments — the engine rejects the empty
bucket name and the empty key. -/
theorem put_empty_args_cex :
    Put [] "" [1] [2] = .error .bucketNameRequired ∧
    Put [] "users" [] [2] = .error .keyRequired :=
  ⟨by decide, by decide⟩

/-- C2 amended: the store layer itself checks no argument shape, but the
engine rejects the degenerate shapes — Put into the empty namespace
always fails with the bucket-name-required error, and Put of the empty
key into any nonempty namespace always fails with the key-required
error, on every database state. -/
theorem put_empty_args_amended (db : Db) (ns : String) (k v : Bytes)
    (hns : ns ≠ "") :
    Put db "" k v = .error .bucketNameRequired ∧
    Put db ns [] v = .error .keyRequired :=
  ⟨Put_empty_ns db k v, Put_empty_key db ns v hns⟩

theorem put_empty_args_amended_witness :
    Put [("x", [])] "" [3] [4] = .error .bucketNameRequired ∧
    Put [("x", [])] "auth" [] [4] = .error .keyRequired :=
  put_empty_args_amended [("x", [])] "auth" [3] [4] (by decide)

/-- C3: Get fails exactly when the namespace is absent or the key is
absent in it, any failure is one of the two not-found errors, and after
Put then Delete of the same pair a Get of that pair fails with the
key-not-found error. -/
theorem get_notfound_spec (db : Db) (ns : String) (k v : Bytes)
    (hwf : DbWF db = true) :
    ((∃ e, Get db ns k = .error e) ↔
      (findBucket db ns = none ∨
        ∃ b, findBucket db ns = some b ∧ bucketLookup b k = none)) ∧
    (∀ e, Get db ns k = .error e →
      e = .bucketNotFound ns ∨ e = .keyNotFound k) ∧
    (∀ db1 db2, Put db ns k v = .ok db1 → Delete db1 ns k = .ok db2 →
      Get db2 ns k = .error (.keyNotFound k)) := by
  refine ⟨⟨?_, ?_⟩, ?_, ?_⟩
  · rintro ⟨e, he⟩
    rcases hfb : findBucket db ns with _ | b
    · exact Or.inl rfl
    · rcases hlk : bucketLookup b k with _ | v2
      · exact Or.inr ⟨b, rfl, hlk⟩
      · rw [Get_eq_found hfb hlk] at he
        exact absurd he (by simp)
  · intro hcase
    rcases hcase with hfb | ⟨b, hfb, hlk⟩
    · exact ⟨_, Get_eq_absent k hfb⟩
    · exact ⟨_, Get_eq_keyMissing k hfb hlk⟩
  · intro e he
    rcases hfb : findBucket db ns with _ | b
    · rw [Get_eq_absent k hfb] at he
      exact Or.inl (Except.error.inj he).symm
    · rcases hlk : bucketLookup b k with _ | v2
      · rw [Get_eq_keyMissing k hfb hlk] at he
        exact Or.inr (Except.error.inj he).symm
      · rw [Get_eq_found hfb hlk] at he
        exact absurd he (by simp)
  · intro db1 db2 h1 h2
    have hwf1 : DbWF db1 = true := DbWF_Put hwf h1
    obtain ⟨b0, hfb1, _⟩ := Put_ok_findBucket_self h1
    rw [Delete_present k hfb1] at h2
    obtain rfl : setBucket db1 ns (bucketDeleteGo (bucketPutGo b0 k v) k) = db2 :=
      Except.ok.inj h2
    have hsb : bucketSorted (bucketPutGo b0 k v) = true := DbWF_findBucket hwf1 hfb1
    exact Get_eq_keyMissing k (findBucket_setBucket_self db1 ns _)
      (bucketLookup_deleteGo_self k hsb)

theorem get_notfound_spec_witness :
    Get [("auth", [])] "auth" [1] = .error (.keyNotFound [1]) :=
  (get_notfound_spec [] "auth" [1] [2] (by decide)).2.2
    [("auth", [([1], [2])])] [("auth", [])] (by decide) (by decide)

/-- C4: after any history of mutating store calls on a fresh database,
ListKeys on a namespace either fails with the namespace-not-found error
or returns a key list in strictly ascending lexicographic order with no
duplicates, containing exactly the keys that some successful Put stored
in that namespace and no later Delete removed. -/
theorem listKeys_trace_spec (ops : List Op) (ns : String) :
    ListKeys (applyOps [] ops) ns = .error (.bucketNotFound ns) ∨
    ∃ ks, ListKeys (applyOps [] ops) ns = .ok ks ∧
      bytesSortedStrict ks = true ∧ ks.Nodup ∧
      ∀ k, k ∈ ks ↔ refPresent ops ns k = true := by
  rcases hfb : findBucket (applyOps [] ops) ns with _ | b
  · exact Or.inl (by simp only [ListKeys, hfb])
  · have hsb : bucketSorted b = true :=
      DbWF_findBucket (DbWF_applyOps (by rfl) ops) hfb
    refine Or.inr ⟨keysOf b, by simp only [ListKeys, hfb], hsb,
      nodup_of_bytesSortedStrict hsb, ?_⟩
    intro k
    rw [mem_keysOf_iff, ← keyPresent_eq_refPresent ops ns k]
    simp only [keyPresent, hfb]

/-- C5: KeysByPrefix fails with the namespace-not-found error when the
namespace is absent, and on an existing namespace the scan (seek to the
first key not below the requested bytes, then advance while the leading
segment matches) returns exactly the keys starting with those bytes, in
ascending lexicographic order. -/
theorem keysByPfx_spec (db : Db) (ns : String) (pfx : Bytes)
    (hwf : DbWF db = true) :
    (findBucket db ns = none →
      KeysByPrefix db ns pfx = .error (.bucketNotFound ns)) ∧
    (∀ b, findBucket db ns = some b →
      KeysByPrefix db ns pfx = .ok ((keysOf b).filter fun k => goHasPfx k pfx) ∧
      bytesSortedStrict ((keysOf b).filter fun k => goHasPfx k pfx) = true) := by
  constructor
  · intro hfb
    simp only [KeysByPrefix, hfb]
  · intro b hfb
    have hsb : bucketSorted b = true := DbWF_findBucket hwf hfb
    have hseek : ((keysOf b).dropWhile fun k => bytesLt k pfx).takeWhile
        (fun k => goHasPfx k pfx) = (keysOf b).filter fun k => goHasPfx k pfx :=
      seek_scan_eq_filter hsb
    constructor
    · simp only [KeysByPrefix, hfb, hseek]
    · exact bytesSortedStrict_filter _ hsb

theorem keysByPfx_spec_witness :
    KeysByPrefix [("n", [([1], [9]), ([1, 2], [8]), ([2], [7])])] "n" [1]
      = .ok ((keysOf [([1], [9]), ([1, 2], [8]), ([2], [7])]).filter
          fun k => goHasPfx k [1]) :=
  ((keysByPfx_spec [("n", [([1], [9]), ([1, 2], [8]), ([2], [7])])] "n" [1]
      (by decide)).2 [([1], [9]), ([1, 2], [8]), ([2], [7])] (by decide)).1

/-- C6 counterexample: quantified over every namespace the overwrite
property fails — with the empty namespace, Put v1, Put v2, Get does not
return v2 (both Puts are rejected by the engine and Get then reports the
namespace missing). -/
theorem overwrite_cex : putPutGet [] "" [1] [7] [8] ≠ .ok [8] := by
  decide

/-- C6 amended: overwrite — for arguments the engine accepts (nonempty
namespace, nonempty key within the size bound, values within the size
bound), Put(ns,k,v1) then Put(ns,k,v2) then Get(ns,k) returns v2. -/
theorem overwrite_amended (db : Db) (ns : String) (k v1 v2 : Bytes)
    (hns : ns ≠ "") (hk : k ≠ []) (hkl : k.length ≤ maxKeySize)
    (hv1 : v1.length ≤ maxValueSize) (hv2 : v2.length ≤ maxValueSize) :
    putPutGet db ns k v1 v2 = .ok v2 := by
  obtain ⟨d1, h1⟩ : ∃ d1, Put db ns k v1 = .ok d1 := Put_valid_ok hns hk hkl hv1
  obtain ⟨d2, h2⟩ : ∃ d2, Put d1 ns k v2 = .ok d2 := Put_valid_ok hns hk hkl hv2
  simp only [putPutGet, h1, h2]
  exact Get_after_Put h2

theorem overwrite_amended_witness : putPutGet [] "users" [1] [7] [8] = .ok [8] :=
  overwrite_amended [] "users" [1] [7] [8] (by decide) (by decide) (by decide)
    (by decide) (by decide)

/-- C7: Delete fails with the namespace-not-found error when the
namespace is absent; on an existing namespace it succeeds, removing the
addressed entry (a Get of that key afterwards reports it missing while
every other key keeps its value), and deleting an absent key succeeds
leaving the database unchanged. -/
theorem delete_spec (db : Db) (ns : String) (k : Bytes) (hwf : DbWF db = true) :
    (findBucket db ns = none → Delete db ns k = .error (.bucketNotFound ns)) ∧
    (∀ b, findBucket db ns = some b →
      Delete db ns k = .ok (setBucket db ns (bucketDeleteGo b k)) ∧
      Get (setBucket db ns (bucketDeleteGo b k)) ns k = .error (.keyNotFound k) ∧
      (∀ k2, k2 ≠ k →
        bucketLookup (bucketDeleteGo b k) k2 = bucketLookup b k2) ∧
      (bucketLookup b k = none → setBucket db ns (bucketDeleteGo b k) = db)) := by
  refine ⟨fun hfb => Delete_absent k hfb, fun b hfb => ?_⟩
  have hsb : bucketSorted b = true := DbWF_findBucket hwf hfb
  refine ⟨Delete_present k hfb, ?_, ?_, ?_⟩
  · exact Get_eq_keyMissing k (findBucket_setBucket_self db ns _)
      (bucketLookup_deleteGo_self k hsb)
  · exact fun k2 hk2 => bucketLookup_deleteGo_other b k k2 hk2
  · intro habs
    rw [bucketDeleteGo_absent habs]
    exact setBucket_unchanged hfb

theorem delete_spec_witness :
    Delete [("session", [([1], [5])])] "session" [1]
      = .ok (setBucket [("session", [([1], [5])])] "session"
          (bucketDeleteGo [([1], [5])] [1])) :=
  ((delete_spec [("session", [([1], [5])])] "session" [1] (by decide)).2
      [([1], [5])] (by decide)).1

/-- C8: namespace isolation — a Put or Delete addressed to namespace a,
whether it succeeds or fails, leaves the bucket of every other namespace
b exactly as it was, so a Get in b returns the same result as before; in
particular a Put in a never makes a Get in b succeed. -/
theorem namespace_isolation (db : Db) (a b : String) (k v k2 : Bytes)
    (hab : a ≠ b) :
    findBucket (applyOp db (.put a k v)) b = findBucket db b ∧
    findBucket (applyOp db (.del a k)) b = findBucket db b ∧
    Get (applyOp db (.put a k v)) b k2 = Get db b k2 := by
  have hput : findBucket (applyOp db (.put a k v)) b = findBucket db b := by
    rcases h : Put db a k v with e | db2
    · rw [applyOp_put_error h]
    · rw [applyOp_put_ok h]
      exact Put_ok_findBucket_other h b fun hc => hab hc.symm
  have hdel : findBucket (applyOp db (.del a k)) b = findBucket db b := by
    rcases hfb : findBucket db a with _ | ba
    · rw [applyOp_del_error (Delete_absent k hfb)]
    · rw [applyOp_del_ok (Delete_present k hfb)]
      exact findBucket_setBucket_other db a b _ fun hc => hab hc.symm
  exact ⟨hput, hdel, by simp only [Get, hput]⟩

theorem namespace_isolation_witness :
    findBucket (applyOp [] (.put "a" [1] [2])) "b" = findBucket [] "b" ∧
    findBucket (applyOp [] (.del "a" [1])) "b" = findBucket [] "b" ∧
    Get (applyOp [] (.put "a" [1] [2])) "b" [1] = Get [] "b" [1] :=
  namespace_isolation [] "a" "b" [1] [2] [1] (by decide)

/-- C9: the NewStore factory succeeds for the registered engine name
"bbolt", handing back a working (fresh) store, and for every other
engine name fails with the unknown-engine error without reaching the
engine open. -/
theorem newStore_spec (engine : String) (h : engine ≠ "bbolt") :
    NewStore "bbolt" = .ok [] ∧
    NewStore engine = .error (.unsupportedEngine engine) := by
  constructor
  · rfl
  · rw [NewStore, if_neg h]

theorem newStore_spec_witness :
    NewStore "bbolt" = .ok [] ∧
    NewStore "redis" = .error (.unsupportedEngine "redis") :=
  newStore_spec "redis" (by decide)

/-- C10: scanning with the empty byte sequence as the requested leading
segment is the same operation as listing all keys — on every database
and namespace the two calls return identical results, errors included,
because the seek to the empty bytes lands on the first key and every key
starts with the empty bytes. -/
theorem keysByPfx_empty_eq_listKeys (db : Db) (ns : String) :
    KeysByPrefix db ns [] = ListKeys db ns := by
  rcases hfb : findBucket db ns with _ | b
  · simp only [KeysByPrefix, ListKeys, hfb]
  · simp only [KeysByPrefix, ListKeys, hfb, dropWhile_lt_nil, takeWhile_pfx_nil]

end Store
